import Mathlib

/-!
Verification of the napajs `path` core module
(`src/module/core-modules/node/path.cpp`).

The file embeds, as executable Lean definitions:

* the `filesystem::Path` engine the callbacks delegate to (`Normalize`,
  `Absolute`, `Dirname`, `Filename`, `Extension`, `IsAbsolute`, `Relative`,
  `operator/=`, `CurrentDirectory`).  That engine is not part of the
  distributed sources, so it is modelled from the specification
  (sections 3, 4 and 9 of `spec.md`): paths are parsed into a root prefix
  plus a list of segments, splitting on both `/` and `\`; normalization is
  the `.`/`..` stack algorithm with root clamping; the platform grammar
  (POSIX vs. Windows drive letters) is an explicit `Style` parameter.
  The Windows grammar implements the spec's productions: a drive prefix is
  `X:` followed by an optional separator (so bare `"c:"` and `"c:foo"`
  carry a drive root and are absolute), and `\\host\share` is a UNC root
  prefix (kept verbatim, serialized with the preferred separator and a
  trailing separator); a single leading separator is a bare root.
* the V8 callbacks of `path.cpp` themselves (argument checking, the
  `basename` suffix handling via `std::string::find`/`substr`, and the
  export table of `path::Init`), translated line by line from the source.
-/

namespace NapaPath

/-- Platform grammar selector; the spec injects this as configuration
(`platformStyle : "posix" | "windows"`). -/
inductive Style
  | posix
  | windows
deriving DecidableEq

/-- Preferred separator character of a style (POSIX `/`, Windows `\`). -/
def sepChar : Style → Char
  | .posix => '/'
  | .windows => '\\'

/-- Modelled from the spec: the parser splits on both `/` and `\`
regardless of platform style. -/
def isSepChar (c : Char) : Bool :=
  c = '/' || c = '\\'

/-- Modelled from the spec: tokenize a character list into the path
components between separators, dropping empty components (the data model
requires segments to be non-empty).  `cur` is the current component,
accumulated in reverse. -/
def splitSegs : List Char → List Char → List (List Char)
  | [], cur => if cur = [] then [] else [cur.reverse]
  | c :: rest, cur =>
    if isSepChar c then
      if cur = [] then splitSegs rest [] else cur.reverse :: splitSegs rest []
    else splitSegs rest (c :: cur)

/-- Join segments with one separator character between them. -/
def joinSegs (sep : Char) : List (List Char) → List Char
  | [] => []
  | [s] => s
  | s :: s₂ :: rest => s ++ sep :: joinSegs sep (s₂ :: rest)

/-- The `.` segment. -/
def dotSeg : List Char := ['.']

/-- The `..` segment. -/
def dotdotSeg : List Char := ['.', '.']

/-- Modelled from the spec's `ParsedPath` value type: an optional root
prefix (kept in canonical separator style) and the ordered list of
segments.  `isAbsolute` is `root.isSome`; the trailing-separator flag is
dropped because every operation modelled here normalizes or re-serializes
without it. -/
structure ParsedPath where
  root : Option (List Char)
  segs : List (List Char)
deriving DecidableEq

/-- Modelled from the spec: POSIX parsing — a leading `/` is the root. -/
def parsePosix (l : List Char) : ParsedPath :=
  match l with
  | [] => ⟨none, []⟩
  | c :: rest =>
    if c = '/' then ⟨some ['/'], splitSegs rest []⟩
    else ⟨none, splitSegs (c :: rest) []⟩

/-- Whether a character list starts with a separator. -/
def isSepHead : List Char → Bool
  | [] => false
  | d :: _ => isSepChar d

/-- Modelled from the spec: build a UNC root from the components found
after two leading separators — `\\host\share` becomes the root prefix
(serialized canonically with trailing separator) and the remaining
components the segments; with fewer than two components the path has the
bare root. -/
def uncParse : List (List Char) → ParsedPath
  | h :: sh :: segs => ⟨some ('\\' :: '\\' :: (h ++ '\\' :: (sh ++ ['\\']))), segs⟩
  | comps => ⟨some ['\\'], comps⟩

/-- Continuation of Windows parsing after one leading separator: a second
separator starts a UNC prefix, otherwise the path has the bare root. -/
def uncTail (rest : List Char) : ParsedPath :=
  match rest with
  | [] => ⟨some ['\\'], []⟩
  | d :: rest₂ =>
    if isSepChar d then uncParse (splitSegs rest₂ [])
    else ⟨some ['\\'], splitSegs (d :: rest₂) []⟩

/-- Continuation of Windows parsing after an alphabetic first character
`c`: when `:` follows, the path has a drive root — `X:` followed by an
optional separator (spec 4.1); the root keeps the separator (canonically
`\`) when one is present.  Otherwise the path is relative. -/
def winDrive (c : Char) (rest : List Char) : ParsedPath :=
  match rest with
  | [] => ⟨none, [[c]]⟩
  | r₁ :: rest₂ =>
    if r₁ = ':' then
      ⟨some (if isSepHead rest₂ then [c, ':', '\\'] else [c, ':']),
        splitSegs rest₂ []⟩
    else ⟨none, splitSegs (c :: r₁ :: rest₂) []⟩

/-- Modelled from the spec: Windows parsing — a drive letter followed by
`:` (and an optional separator) is a drive root, `\\host\share` is a UNC
root, any other leading separator is the bare root; anything else is
relative. -/
def parseWin (l : List Char) : ParsedPath :=
  match l with
  | [] => ⟨none, []⟩
  | c :: rest =>
    if isSepChar c then uncTail rest
    else if c.isAlpha = true then winDrive c rest
    else ⟨none, splitSegs (c :: rest) []⟩

/-- Parse a raw character list under a platform style. -/
def parseL (st : Style) (l : List Char) : ParsedPath :=
  match st with
  | .posix => parsePosix l
  | .windows => parseWin l

/-- Serialize a parsed path: the root prefix verbatim, then the segments
joined with the style's preferred separator. -/
def serializeL (st : Style) (p : ParsedPath) : List Char :=
  match p.root with
  | some r => r ++ joinSegs (sepChar st) p.segs
  | none => joinSegs (sepChar st) p.segs

/-- Modelled from the spec's normalization step: skip `.`; for `..` pop
the last output segment unless the stack is empty or already holds a kept
`..` (an absolute path discards a `..` at the root — root clamping — and a
relative path keeps it); push everything else.  The stack holds the output
segments in reverse. -/
def normStep (isAbs : Bool) (stk : List (List Char)) (seg : List Char) :
    List (List Char) :=
  if seg = dotSeg then stk
  else if seg = dotdotSeg then
    match stk with
    | [] => if isAbs then [] else [dotdotSeg]
    | t :: rest => if t = dotdotSeg then dotdotSeg :: t :: rest else rest
  else seg :: stk

/-- Normalized segment list of a path with the given absoluteness. -/
def normSegs (isAbs : Bool) (segs : List (List Char)) : List (List Char) :=
  (segs.foldl (normStep isAbs) []).reverse

/-- Modelled from the spec: normalize a parsed path; an empty relative
result becomes the single segment `.`. -/
def normPath (p : ParsedPath) : ParsedPath :=
  match p.root with
  | some r => ⟨some r, normSegs true p.segs⟩
  | none =>
    let s := normSegs false p.segs
    ⟨none, if s = [] then [dotSeg] else s⟩

/-- Modelled from the spec: `filesystem::Path::Normalize` as a
string-to-string operation (parse, normalize, serialize). -/
def normalizeL (st : Style) (l : List Char) : List Char :=
  serializeL st (normPath (parseL st l))

/-- Modelled from the spec: `filesystem::Path::operator/=` — appending an
absolute path replaces the accumulated path (a later absolute argument
overrides everything before it), appending a relative one concatenates
its segments. -/
def appendP (a b : ParsedPath) : ParsedPath :=
  if b.root.isSome then b else ⟨a.root, a.segs ++ b.segs⟩

/-- Modelled from the spec: `filesystem::Path::Absolute` — anchor a
relative path by prefixing the current working directory. -/
def absolutize (st : Style) (cwd : List Char) (p : ParsedPath) : ParsedPath :=
  if p.root.isSome then p else appendP (parseL st cwd) p

/-- Embedding of the loop of `ResolveCallback` (path.cpp lines 164-174):
start from the current working directory, append every argument in order,
then anchor and normalize. -/
def resolveL (st : Style) (cwd : List Char) (parts : List (List Char)) :
    List Char :=
  let folded := parts.foldl (fun acc s => appendP acc (parseL st s))
    (parseL st cwd)
  serializeL st (normPath (absolutize st cwd folded))

/-- Embedding of the loop of `JoinCallback` (path.cpp lines 185-196):
start from the first argument, append the rest, normalize.  Join never
consults the current directory. -/
def joinL (st : Style) (first : List Char) (rest : List (List Char)) :
    List Char :=
  serializeL st
    (normPath (rest.foldl (fun acc s => appendP acc (parseL st s))
      (parseL st first)))

/-- Modelled from the spec: `filesystem::Path::Filename` — the last
segment, or the empty string when there is none. -/
def lastSegL (st : Style) (l : List Char) : List Char :=
  match (parseL st l).segs.getLast? with
  | some s => s
  | none => []

/-- Modelled from the spec: `filesystem::Path::Dirname` — drop the last
segment and re-serialize with the root retained; with zero or one segment
a relative path yields `.`. -/
def dirnameL (st : Style) (l : List Char) : List Char :=
  let p := parseL st l
  let d := p.segs.dropLast
  match p.root with
  | some r => r ++ joinSegs (sepChar st) d
  | none => if d = [] then dotSeg else joinSegs (sepChar st) d

/-- Position of the last `.` in a segment (scanning with an index
accumulator). -/
def lastDotIdxAux : List Char → Nat → Option Nat → Option Nat
  | [], _, acc => acc
  | c :: rest, i, acc =>
    lastDotIdxAux rest (i + 1) (if c = '.' then some i else acc)

/-- Position of the last `.` in a segment, if any. -/
def lastDotIdx (s : List Char) : Option Nat :=
  lastDotIdxAux s 0 none

/-- Modelled from the spec: `filesystem::Path::Extension` — the substring
of the last segment from its last `.`, unless that dot is the segment's
first character or there is no dot. -/
def extOfSeg (s : List Char) : List Char :=
  match lastDotIdx s with
  | none => []
  | some 0 => []
  | some i => s.drop i

/-- Extension of a path: extension of its last segment. -/
def extnameL (st : Style) (l : List Char) : List Char :=
  extOfSeg (lastSegL st l)

/-- First index at which `pat` occurs in a list, the way
`std::string::find` reports it (the empty pattern occurs at 0). -/
def strFind (pat : List Char) : List Char → Option Nat
  | [] => if pat.isPrefixOf ([] : List Char) then some 0 else none
  | c :: rest =>
    if pat.isPrefixOf (c :: rest) then some 0
    else (strFind pat rest).map (· + 1)

/-- Embedding of the suffix handling of `BasenameCallback` (path.cpp
lines 224-236): take the file name (last segment); when a suffix argument
is present, `std::string::find` its first occurrence and truncate the
name there (`substr(0, pos)`). -/
def basenameL (st : Style) (l : List Char) (ext? : Option (List Char)) :
    List Char :=
  let fn := lastSegL st l
  match ext? with
  | none => fn
  | some e =>
    match strFind e fn with
    | some pos => fn.take pos
    | none => fn

/-- Length of the longest common segment prefix. -/
def commonPrefixLen : List (List Char) → List (List Char) → Nat
  | a :: as, b :: bs => if a = b then commonPrefixLen as bs + 1 else 0
  | _, _ => 0

/-- Modelled from the spec: `filesystem::Path::Relative` — resolve and
normalize both paths; different roots yield the resolved `to` path;
otherwise one `..` per extra `from` segment beyond the common prefix,
then the extra `to` segments; an empty result is `.`. -/
def relativeL (st : Style) (cwd fromP toP : List Char) : List Char :=
  let pf := normPath (absolutize st cwd (parseL st fromP))
  let pt := normPath (absolutize st cwd (parseL st toP))
  if pf.root ≠ pt.root then serializeL st pt
  else
    let k := commonPrefixLen pf.segs pt.segs
    let rsegs := List.replicate (pf.segs.length - k) dotdotSeg ++ pt.segs.drop k
    if rsegs = [] then dotSeg else joinSegs (sepChar st) rsegs

/-! String-level wrappers: the operations exactly as the module exposes
them, on Lean `String`s. -/

/-- `path.normalize` on strings. -/
def normalizeStr (st : Style) (s : String) : String :=
  ⟨normalizeL st s.data⟩

/-- `path.resolve` on strings (`cwd` is the current-directory provider's
answer, read once per call). -/
def resolveStr (st : Style) (cwd : String) (parts : List String) : String :=
  ⟨resolveL st cwd.data (parts.map String.data)⟩

/-- `path.join` on strings (first argument required). -/
def joinStr (st : Style) (first : String) (rest : List String) : String :=
  ⟨joinL st first.data (rest.map String.data)⟩

/-- `path.dirname` on strings. -/
def dirnameStr (st : Style) (s : String) : String :=
  ⟨dirnameL st s.data⟩

/-- `path.basename` on strings, with the optional suffix argument. -/
def basenameStr (st : Style) (s : String) (ext? : Option String) : String :=
  ⟨basenameL st s.data (ext?.map String.data)⟩

/-- `path.extname` on strings. -/
def extnameStr (st : Style) (s : String) : String :=
  ⟨extnameL st s.data⟩

/-- `path.isAbsolute` on strings. -/
def isAbsStr (st : Style) (s : String) : Bool :=
  (parseL st s.data).root.isSome

/-- `path.relative` on strings (note `RelativeCallback` computes
`Path(to).Relative(from)`, i.e. the route from `fromP` to `toP`). -/
def relativeStr (st : Style) (cwd fromP toP : String) : String :=
  ⟨relativeL st cwd.data fromP.data toP.data⟩

/-! The V8 call boundary: `path.cpp`'s callbacks with their `CHECK_ARG`
validation, embedded over an argument type that distinguishes strings
from any other JavaScript value. -/

/-- A JavaScript argument as the callbacks classify it: a string, or
anything else. -/
inductive JsValue
  | str (s : String)
  | other
deriving DecidableEq

/-- Whether an argument is a string (`IsString`). -/
def JsValue.isString : JsValue → Bool
  | .str _ => true
  | .other => false

/-- Extract the strings of an argument list, or `none` at the first
non-string. -/
def getStrings : List JsValue → Option (List String)
  | [] => some []
  | .str s :: rest => (getStrings rest).map (s :: ·)
  | .other :: _ => none

/-- Embedding of `NormalizeCallback` (path.cpp lines 143-154). -/
def NormalizeCallback (st : Style) (args : List JsValue) :
    Except String String :=
  match args with
  | [.str s] => .ok (normalizeStr st s)
  | _ => .error "path.normalize requires 1 string parameter of file path."

/-- Embedding of `ResolveCallback` (path.cpp lines 156-175). -/
def ResolveCallback (st : Style) (cwd : String) (args : List JsValue) :
    Except String String :=
  if args.length = 0 then
    .error "path.resolve requires at least one string parameters."
  else
    match getStrings args with
    | some parts => .ok (resolveStr st cwd parts)
    | none => .error "path.resolve doesn't accept non-string argument."

/-- Embedding of `JoinCallback` (path.cpp lines 177-197). -/
def JoinCallback (st : Style) (args : List JsValue) :
    Except String String :=
  match args with
  | .str s :: rest =>
    match getStrings rest with
    | some parts => .ok (joinStr st s parts)
    | none => .error "path.join doesn't accept non-string argument."
  | _ => .error "path.join requires at least one string parameters."

/-- Embedding of `DirnameCallback` (path.cpp lines 199-210). -/
def DirnameCallback (st : Style) (args : List JsValue) :
    Except String String :=
  match args with
  | [.str s] => .ok (dirnameStr st s)
  | _ => .error "path.dirname requires 1 string parameter of file path."

/-- Embedding of `BasenameCallback` (path.cpp lines 212-238): first the
arity check (1 or 2), then the type of the path, then — only for two
arguments — the type of the extension. -/
def BasenameCallback (st : Style) (args : List JsValue) :
    Except String String :=
  if args.length = 1 ∨ args.length = 2 then
    match args with
    | .str s :: rest =>
      match rest with
      | [] => .ok (basenameStr st s none)
      | [.str e] => .ok (basenameStr st s (some e))
      | _ => .error "path.basename requires a string as 2nd parameter of extension."
    | _ => .error "path.basename requires a string parameter of file path."
  else
    .error "path.basename takes 1 required argument of file path and 1 optional argument of extension"

/-- Embedding of `ExtnameCallback` (path.cpp lines 240-251). -/
def ExtnameCallback (st : Style) (args : List JsValue) :
    Except String String :=
  match args with
  | [.str s] => .ok (extnameStr st s)
  | _ => .error "path.extname requires 1 string parameter of file path."

/-- Embedding of `IsAbsoluteCallback` (path.cpp lines 253-264). -/
def IsAbsoluteCallback (st : Style) (args : List JsValue) :
    Except String Bool :=
  match args with
  | [.str s] => .ok (isAbsStr st s)
  | _ => .error "path.isAbsolute requires 1 string parameter of file path."

/-- Embedding of `RelativeCallback` (path.cpp lines 266-279): two string
arguments; the result is `Path(to).Relative(from)`. -/
def RelativeCallback (st : Style) (cwd : String) (args : List JsValue) :
    Except String String :=
  match args with
  | [.str fromP, .str toP] => .ok (relativeStr st cwd fromP toP)
  | _ => .error "path.relative requires 2 arguments of string type."

/-! The export table of `path::Init` (path.cpp lines 121-139). -/

/-- What `path::Init` binds a name to: a method, or a data property with
a string value. -/
inductive ExportValue
  | method
  | data (v : String)
deriving DecidableEq

/-- Embedding of `path::Init`: the eight `NAPA_SET_METHOD` calls and the
`CreateDataProperty` of `"sep"` bound to `platform::DIR_SEPARATOR`
(modelled from the spec as the style's preferred separator). -/
def pathExports (st : Style) : List (String × ExportValue) :=
  [("normalize", .method), ("resolve", .method), ("join", .method),
   ("dirname", .method), ("basename", .method), ("extname", .method),
   ("isAbsolute", .method), ("relative", .method),
   ("sep", .data ⟨[sepChar st]⟩)]

/-! Predicates used by the verification layer: well-formed segments,
canonical roots, and the shape of normalized paths. -/

/-- A well-formed segment: non-empty and free of separator characters. -/
def segOK (s : List Char) : Prop :=
  s ≠ [] ∧ ∀ c ∈ s, isSepChar c = false

/-- A plain segment: well-formed and neither `.` nor `..`. -/
def plainSeg (s : List Char) : Prop :=
  segOK s ∧ s ≠ dotSeg ∧ s ≠ dotdotSeg

/-- The tail a segment list contributes after a first segment: nothing
when it is empty, otherwise a separator and the joined rest. -/
def joinTail (sep : Char) : List (List Char) → List Char
  | [] => []
  | s :: rest => sep :: joinSegs sep (s :: rest)

/-- Shape of the normalization stack during the left fold: all plain for
an absolute path; plain entries over kept `..` entries for a relative
one. -/
def StackOK : Bool → List (List Char) → Prop
  | true, stk => ∀ s ∈ stk, plainSeg s
  | false, stk =>
    ∃ pl dd, stk = pl ++ dd ∧ (∀ s ∈ pl, plainSeg s) ∧ ∀ s ∈ dd, s = dotdotSeg

/-- Canonical root prefixes a style can produce: the POSIX root, the bare
Windows root, a drive root with or without its separator, or a UNC
host/share prefix. -/
def rootOK : Style → List Char → Prop
  | .posix, r => r = ['/']
  | .windows, r =>
    r = ['\\'] ∨
    (∃ a : Char, a.isAlpha = true ∧ (r = [a, ':'] ∨ r = [a, ':', '\\'])) ∨
    (∃ h sh : List Char, segOK h ∧ segOK sh ∧
      r = '\\' :: '\\' :: (h ++ '\\' :: (sh ++ ['\\'])))

/-- Well-formedness every parsed path enjoys: well-formed segments and a
canonical root. -/
def PreCanon (st : Style) (p : ParsedPath) : Prop :=
  (∀ s ∈ p.segs, segOK s) ∧ ∀ r, p.root = some r → rootOK st r

/-- Shape of a normalized relative segment list: the single `.` segment,
or a non-empty run of `..` segments followed by plain segments. -/
def relShape (segs : List (List Char)) : Prop :=
  segs = [dotSeg] ∨
    (segs ≠ [] ∧ ∃ dd pl, segs = dd ++ pl ∧
      (∀ s ∈ dd, s = dotdotSeg) ∧ ∀ s ∈ pl, plainSeg s)

/-- Canonical form of a normalized path: well-formed, and the segments
have the normalized shape for the path's absoluteness. -/
def Canon (st : Style) (p : ParsedPath) : Prop :=
  PreCanon st p ∧
    match p.root with
    | some _ => ∀ s ∈ p.segs, plainSeg s
    | none => relShape p.segs

/-! Lemmas about tokenization and joining. -/

theorem splitSegs_nonsep {c : Char} (h : isSepChar c = false) (rest cur : List Char) :
    splitSegs (c :: rest) cur = splitSegs rest (c :: cur) := by
  simp [splitSegs, h]

theorem splitSegs_sep_nil {c : Char} (h : isSepChar c = true) (rest : List Char) :
    splitSegs (c :: rest) [] = splitSegs rest [] := by
  simp [splitSegs, h]

theorem splitSegs_sep_cons {c : Char} (h : isSepChar c = true) (rest : List Char)
    {cur : List Char} (hc : cur ≠ []) :
    splitSegs (c :: rest) cur = cur.reverse :: splitSegs rest [] := by
  simp [splitSegs, h, hc]

theorem splitSegs_ok (l : List Char) :
    ∀ cur : List Char, (∀ c ∈ cur, isSepChar c = false) →
      ∀ s ∈ splitSegs l cur, segOK s := by
  induction l with
  | nil =>
    intro cur hcur s hs
    by_cases h0 : cur = []
    · simp [splitSegs, h0] at hs
    · simp [splitSegs, h0] at hs
      subst hs
      exact ⟨by simpa using h0, fun c hc => hcur c (List.mem_reverse.mp hc)⟩
  | cons c rest ih =>
    intro cur hcur s hs
    by_cases hc : isSepChar c = true
    · by_cases h0 : cur = []
      · subst h0
        rw [splitSegs_sep_nil hc] at hs
        exact ih [] (by simp) s hs
      · rw [splitSegs_sep_cons hc rest h0] at hs
        rcases List.mem_cons.mp hs with rfl | hs
        · exact ⟨by simpa using h0, fun d hd => hcur d (List.mem_reverse.mp hd)⟩
        · exact ih [] (by simp) s hs
    · have hc₂ : isSepChar c = false := by simpa using hc
      rw [splitSegs_nonsep hc₂] at hs
      refine ih (c :: cur) ?_ s hs
      intro d hd
      rcases List.mem_cons.mp hd with rfl | hd
      · exact hc₂
      · exact hcur d hd

theorem joinSegs_eq (sep : Char) (f : List Char) (rest : List (List Char)) :
    joinSegs sep (f :: rest) = f ++ joinTail sep rest := by
  cases rest <;> simp [joinSegs, joinTail]

theorem splitSegs_append {seg : List Char} (h : ∀ c ∈ seg, isSepChar c = false) :
    ∀ rest cur : List Char,
      splitSegs (seg ++ rest) cur = splitSegs rest (seg.reverse ++ cur) := by
  induction seg with
  | nil => intro rest cur; simp
  | cons c s ih =>
    intro rest cur
    have hc : isSepChar c = false := h c (by simp)
    have hs : ∀ d ∈ s, isSepChar d = false := fun d hd => h d (by simp [hd])
    rw [List.cons_append, splitSegs_nonsep hc, ih hs]
    congr 1
    simp

theorem splitSegs_joinSegs {sep : Char} (hsep : isSepChar sep = true) :
    ∀ segs : List (List Char), (∀ s ∈ segs, segOK s) →
      splitSegs (joinSegs sep segs) [] = segs := by
  intro segs
  induction segs with
  | nil => intro _; simp [joinSegs, splitSegs]
  | cons f rest ih =>
    intro h
    have hf : segOK f := h f (by simp)
    cases rest with
    | nil =>
      show splitSegs (joinSegs sep [f]) [] = [f]
      have he : joinSegs sep [f] = f ++ [] := by simp [joinSegs]
      rw [he, splitSegs_append hf.2]
      simp [splitSegs, hf.1]
    | cons g rest₂ =>
      have he : joinSegs sep (f :: g :: rest₂) = f ++ sep :: joinSegs sep (g :: rest₂) := rfl
      rw [he, splitSegs_append hf.2, splitSegs_sep_cons hsep _ (by simp [hf.1])]
      simp only [List.append_nil, List.reverse_reverse]
      rw [ih (fun s hs => h s (by simp [hs]))]

/-! Lemmas about the normalization fold. -/

theorem dotdot_ne_dot : dotdotSeg ≠ dotSeg := by decide

theorem normStep_dot (ab : Bool) (stk : List (List Char)) :
    normStep ab stk dotSeg = stk := by
  simp [normStep]

theorem normStep_plain {s : List Char} (h₁ : s ≠ dotSeg) (h₂ : s ≠ dotdotSeg)
    (ab : Bool) (stk : List (List Char)) : normStep ab stk s = s :: stk := by
  simp [normStep, h₁, h₂]

theorem foldl_normStep_plain {segs : List (List Char)}
    (h : ∀ s ∈ segs, s ≠ dotSeg ∧ s ≠ dotdotSeg) (ab : Bool) :
    ∀ stk, segs.foldl (normStep ab) stk = segs.reverse ++ stk := by
  induction segs with
  | nil => simp
  | cons a l ih =>
    intro stk
    have ha := h a (by simp)
    rw [List.foldl_cons, normStep_plain ha.1 ha.2,
      ih (fun s hs => h s (by simp [hs])), List.reverse_cons, List.append_assoc]
    simp

theorem normStep_dd_stack {stk : List (List Char)} (h : ∀ s ∈ stk, s = dotdotSeg) :
    normStep false stk dotdotSeg = dotdotSeg :: stk := by
  cases stk with
  | nil => simp [normStep, dotdot_ne_dot]
  | cons t r =>
    have ht : t = dotdotSeg := h t (by simp)
    simp [normStep, dotdot_ne_dot, ht]

theorem foldl_normStep_dds {dds : List (List Char)} (h : ∀ s ∈ dds, s = dotdotSeg) :
    ∀ stk, (∀ s ∈ stk, s = dotdotSeg) →
      dds.foldl (normStep false) stk = dds.reverse ++ stk := by
  induction dds with
  | nil => simp
  | cons a l ih =>
    intro stk hstk
    have ha : a = dotdotSeg := h a (by simp)
    subst ha
    rw [List.foldl_cons, normStep_dd_stack hstk,
      ih (fun s hs => h s (by simp [hs])) _ ?_, List.reverse_cons, List.append_assoc]
    · simp
    · intro s hs
      rcases List.mem_cons.mp hs with rfl | hs
      · rfl
      · exact hstk s hs

theorem normStep_suffix {dd₀ : List (List Char)} (h : ∀ s ∈ dd₀, s = dotdotSeg)
    (a : List Char) (l₀ : List (List Char)) :
    ∃ l₁, normStep false (l₀ ++ dd₀) a = l₁ ++ dd₀ := by
  by_cases h₁ : a = dotSeg
  · exact ⟨l₀, by simp [normStep, h₁]⟩
  by_cases h₂ : a = dotdotSeg
  · subst h₂
    cases l₀ with
    | nil =>
      cases dd₀ with
      | nil => exact ⟨[dotdotSeg], by simp [normStep, dotdot_ne_dot]⟩
      | cons t r =>
        have ht : t = dotdotSeg := h t (by simp)
        exact ⟨[dotdotSeg], by simp [normStep, dotdot_ne_dot, ht]⟩
    | cons p l₀ =>
      by_cases hp : p = dotdotSeg
      · exact ⟨dotdotSeg :: p :: l₀, by simp [normStep, dotdot_ne_dot, hp]⟩
      · exact ⟨l₀, by simp [normStep, dotdot_ne_dot, hp]⟩
  · exact ⟨a :: l₀, by simp [normStep_plain h₁ h₂]⟩

theorem foldl_normStep_suffix {dd₀ : List (List Char)} (h : ∀ s ∈ dd₀, s = dotdotSeg) :
    ∀ (segs : List (List Char)) (l₀ : List (List Char)),
      ∃ l, segs.foldl (normStep false) (l₀ ++ dd₀) = l ++ dd₀ := by
  intro segs
  induction segs with
  | nil => exact fun l₀ => ⟨l₀, by simp⟩
  | cons a segs ih =>
    intro l₀
    obtain ⟨l₁, hl₁⟩ := normStep_suffix h a l₀
    obtain ⟨l, hl⟩ := ih l₁
    exact ⟨l, by rw [List.foldl_cons, hl₁, hl]⟩

theorem normStep_stackOK {ab : Bool} {stk : List (List Char)} {seg : List Char}
    (hseg : segOK seg) (h : StackOK ab stk) : StackOK ab (normStep ab stk seg) := by
  by_cases h₁ : seg = dotSeg
  · rw [h₁, normStep_dot]; exact h
  by_cases h₂ : seg = dotdotSeg
  · subst h₂
    cases ab with
    | true =>
      cases stk with
      | nil =>
        show StackOK true (normStep true [] dotdotSeg)
        simp only [normStep, dotdot_ne_dot, if_false, if_pos rfl, reduceIte]
        intro s hs
        simp at hs
      | cons t r =>
        have ht := h t (by simp)
        show StackOK true (normStep true (t :: r) dotdotSeg)
        simp only [normStep, dotdot_ne_dot, if_false, if_pos rfl, ht.2.2, reduceIte]
        intro s hs
        exact h s (by simp [hs])
    | false =>
      obtain ⟨pl, dd, hstk, hpl, hdd⟩ := h
      cases pl with
      | nil =>
        simp only [List.nil_append] at hstk
        subst hstk
        rw [normStep_dd_stack hdd]
        refine ⟨[], dotdotSeg :: stk, by simp, by simp, ?_⟩
        intro s hs
        rcases List.mem_cons.mp hs with rfl | hs
        · rfl
        · exact hdd s hs
      | cons p pl₂ =>
        have hp := hpl p (by simp)
        subst hstk
        show StackOK false (normStep false (p :: (pl₂ ++ dd)) dotdotSeg)
        simp only [normStep, dotdot_ne_dot, if_false, if_pos rfl, hp.2.2, reduceIte, List.cons_append]
        exact ⟨pl₂, dd, rfl, fun s hs => hpl s (by simp [hs]), hdd⟩
  · rw [normStep_plain h₁ h₂]
    cases ab with
    | true =>
      intro s hs
      rcases List.mem_cons.mp hs with rfl | hs
      · exact ⟨hseg, h₁, h₂⟩
      · exact h s hs
    | false =>
      obtain ⟨pl, dd, hstk, hpl, hdd⟩ := h
      subst hstk
      exact ⟨seg :: pl, dd, by simp, fun s hs => by
        rcases List.mem_cons.mp hs with rfl | hs
        · exact ⟨hseg, h₁, h₂⟩
        · exact hpl s hs, hdd⟩

theorem foldl_normStep_stackOK {ab : Bool} :
    ∀ segs : List (List Char), (∀ s ∈ segs, segOK s) →
      ∀ stk, StackOK ab stk → StackOK ab (segs.foldl (normStep ab) stk) := by
  intro segs
  induction segs with
  | nil => exact fun _ stk h => h
  | cons a segs ih =>
    intro h stk hstk
    rw [List.foldl_cons]
    exact ih (fun s hs => h s (by simp [hs])) _
      (normStep_stackOK (h a (by simp)) hstk)

/-! Parser facts: equation lemmas and well-formedness. -/

theorem alpha_not_sep {a : Char} (h : a.isAlpha = true) : isSepChar a = false := by
  by_cases h₁ : a = '/'
  · subst h₁; exact absurd h (by decide)
  by_cases h₂ : a = '\\'
  · subst h₂; exact absurd h (by decide)
  simp [isSepChar, h₁, h₂]

theorem parsePosix_root {c : Char} (h : c = '/') (rest : List Char) :
    parsePosix (c :: rest) = ⟨some ['/'], splitSegs rest []⟩ := by
  simp [parsePosix, h]

theorem parsePosix_rel {c : Char} (h : c ≠ '/') (rest : List Char) :
    parsePosix (c :: rest) = ⟨none, splitSegs (c :: rest) []⟩ := by
  simp [parsePosix, h]

theorem parseWin_sep {c : Char} (h : isSepChar c = true) (rest : List Char) :
    parseWin (c :: rest) = uncTail rest := by
  simp [parseWin, h]

theorem parseWin_nonalpha {c : Char} (h : isSepChar c = false)
    (ha : c.isAlpha = false) (rest : List Char) :
    parseWin (c :: rest) = ⟨none, splitSegs (c :: rest) []⟩ := by
  simp [parseWin, h, ha]

theorem parseWin_alpha {c : Char} (h : isSepChar c = false)
    (ha : c.isAlpha = true) (rest : List Char) :
    parseWin (c :: rest) = winDrive c rest := by
  simp [parseWin, h, ha]

theorem uncTail_nonsep {d : Char} (h : isSepChar d = false) (rest₂ : List Char) :
    uncTail (d :: rest₂) = ⟨some ['\\'], splitSegs (d :: rest₂) []⟩ := by
  simp [uncTail, h]

theorem uncTail_sep {d : Char} (h : isSepChar d = true) (rest₂ : List Char) :
    uncTail (d :: rest₂) = uncParse (splitSegs rest₂ []) := by
  simp [uncTail, h]

theorem winDrive_colon (c : Char) (rest₂ : List Char) :
    winDrive c (':' :: rest₂) =
      ⟨some (if isSepHead rest₂ then [c, ':', '\\'] else [c, ':']),
        splitSegs rest₂ []⟩ := by
  simp [winDrive]

theorem winDrive_noncolon {r₁ : Char} (h : r₁ ≠ ':') (c : Char) (rest₂ : List Char) :
    winDrive c (r₁ :: rest₂) = ⟨none, splitSegs (c :: r₁ :: rest₂) []⟩ := by
  simp [winDrive, h]

theorem parseL_win (l : List Char) : parseL .windows l = parseWin l := rfl

theorem parseL_preCanon (st : Style) (l : List Char) : PreCanon st (parseL st l) := by
  cases st with
  | posix =>
    cases l with
    | nil => exact ⟨by simp [parseL, parsePosix], by simp [parseL, parsePosix]⟩
    | cons c rest =>
      by_cases hc : c = '/'
      · rw [show parseL .posix (c :: rest) = parsePosix (c :: rest) from rfl,
          parsePosix_root hc]
        exact ⟨fun s hs => splitSegs_ok rest [] (by simp) s hs,
          fun r hr => by simp at hr; simp [rootOK, ← hr]⟩
      · rw [show parseL .posix (c :: rest) = parsePosix (c :: rest) from rfl,
          parsePosix_rel hc]
        exact ⟨fun s hs => splitSegs_ok _ [] (by simp) s hs, by simp⟩
  | windows =>
    cases l with
    | nil => exact ⟨by simp [parseL, parseWin], by simp [parseL, parseWin]⟩
    | cons c rest =>
      rw [parseL_win]
      by_cases hc : isSepChar c = true
      · rw [parseWin_sep hc]
        cases rest with
        | nil =>
          exact ⟨by simp [uncTail], fun r hr => by
            simp [uncTail] at hr; simp [rootOK, ← hr]⟩
        | cons d rest₂ =>
          by_cases hd : isSepChar d = true
          · rw [uncTail_sep hd]
            have hcomps := splitSegs_ok rest₂ [] (by simp)
            cases hsp : splitSegs rest₂ [] with
            | nil =>
              exact ⟨by simp [uncParse], fun r hr => by
                simp [uncParse] at hr; simp [rootOK, ← hr]⟩
            | cons h₁ tail =>
              cases tail with
              | nil =>
                refine ⟨?_, ?_⟩
                · intro s hs
                  simp only [uncParse, List.mem_singleton] at hs
                  subst hs
                  exact hcomps s (by rw [hsp]; simp)
                · intro r hr
                  simp only [uncParse, Option.some.injEq] at hr
                  simp [rootOK, ← hr]
              | cons h₂ segs =>
                refine ⟨?_, ?_⟩
                · intro s hs
                  simp only [uncParse] at hs
                  exact hcomps s (by rw [hsp]; simp [hs])
                · intro r hr
                  simp only [uncParse, Option.some.injEq] at hr
                  refine Or.inr (Or.inr ⟨h₁, h₂, ?_, ?_, hr.symm⟩)
                  · exact hcomps h₁ (by rw [hsp]; simp)
                  · exact hcomps h₂ (by rw [hsp]; simp)
          · rw [uncTail_nonsep (by simpa using hd)]
            exact ⟨fun s hs => splitSegs_ok _ [] (by simp) s hs,
              fun r hr => by simp at hr; simp [rootOK, ← hr]⟩
      have hc₂ : isSepChar c = false := by simpa using hc
      by_cases ha : c.isAlpha = true
      · rw [parseWin_alpha hc₂ ha]
        cases rest with
        | nil =>
          refine ⟨?_, by simp [winDrive]⟩
          intro s hs
          simp only [winDrive, List.mem_singleton] at hs
          subst hs
          exact ⟨by simp, fun d hd => by simp at hd; subst hd; exact hc₂⟩
        | cons r₁ rest₂ =>
          by_cases hr₁ : r₁ = ':'
          · subst hr₁
            rw [winDrive_colon]
            refine ⟨fun s hs => splitSegs_ok rest₂ [] (by simp) s hs, ?_⟩
            intro r hr
            simp only [Option.some.injEq] at hr
            refine Or.inr (Or.inl ⟨c, ha, ?_⟩)
            cases hh : isSepHead rest₂ <;> simp [hh] at hr <;> simp [← hr]
          · rw [winDrive_noncolon hr₁]
            exact ⟨fun s hs => splitSegs_ok _ [] (by simp) s hs, by simp⟩
      · have ha₂ : c.isAlpha = false := by simpa using ha
        rw [parseWin_nonalpha hc₂ ha₂]
        exact ⟨fun s hs => splitSegs_ok _ [] (by simp) s hs, by simp⟩

theorem appendP_preCanon {st : Style} {a b : ParsedPath} (ha : PreCanon st a)
    (hb : PreCanon st b) : PreCanon st (appendP a b) := by
  by_cases h : b.root.isSome
  · simp [appendP, h]; exact hb
  · refine ⟨?_, ?_⟩
    · intro s hs
      simp only [appendP, h, Bool.false_eq_true, if_neg, ite_false] at hs
      rcases List.mem_append.mp hs with hs | hs
      · exact ha.1 s hs
      · exact hb.1 s hs
    · intro r hr
      simp only [appendP, h, ite_false] at hr
      exact ha.2 r hr

theorem foldl_appendP_preCanon {st : Style} :
    ∀ parts : List (List Char), ∀ {acc : ParsedPath}, PreCanon st acc →
      PreCanon st (parts.foldl (fun acc s => appendP acc (parseL st s)) acc) := by
  intro parts
  induction parts with
  | nil => exact fun h => h
  | cons p parts ih =>
    intro acc hacc
    exact ih (appendP_preCanon hacc (parseL_preCanon st p))

theorem absolutize_preCanon {st : Style} (cwd : List Char) {p : ParsedPath}
    (hp : PreCanon st p) : PreCanon st (absolutize st cwd p) := by
  by_cases h : p.root.isSome
  · simpa [absolutize, h] using hp
  · simp only [absolutize, h, ite_false, Bool.false_eq_true, if_neg]
    exact appendP_preCanon (parseL_preCanon st cwd) hp

theorem normPath_canon {st : Style} {p : ParsedPath} (h : PreCanon st p) :
    Canon st (normPath p) := by
  obtain ⟨hsegs, hroot⟩ := h
  cases hr : p.root with
  | some r =>
    have hstk : StackOK true (p.segs.foldl (normStep true) []) :=
      foldl_normStep_stackOK p.segs hsegs [] (by intro s hs; simp at hs)
    have hnp : normPath p = ⟨some r, normSegs true p.segs⟩ := by
      simp [normPath, hr]
    rw [hnp]
    refine ⟨⟨?_, ?_⟩, ?_⟩
    · intro s hs
      have := hstk s (by simpa [normSegs] using hs)
      exact this.1
    · intro r₂ hr₂
      simp only [Option.some.injEq] at hr₂
      exact hr₂ ▸ hroot r hr
    · intro s hs
      exact hstk s (by simpa [normSegs] using hs)
  | none =>
    have hstk : StackOK false (p.segs.foldl (normStep false) []) :=
      foldl_normStep_stackOK p.segs hsegs [] ⟨[], [], by simp, by simp, by simp⟩
    obtain ⟨pl, dd, heq, hpl, hdd⟩ := hstk
    have hns : normSegs false p.segs = dd.reverse ++ pl.reverse := by
      simp [normSegs, heq]
    have hnp : normPath p =
        ⟨none, if normSegs false p.segs = [] then [dotSeg] else normSegs false p.segs⟩ := by
      simp [normPath, hr]
    by_cases hemp : normSegs false p.segs = []
    · rw [hnp, if_pos hemp]
      exact ⟨⟨by intro s hs; simp at hs; subst hs; exact ⟨by simp [dotSeg], by decide⟩,
        by simp⟩, Or.inl rfl⟩
    · rw [hnp, if_neg hemp]
      refine ⟨⟨?_, by simp⟩, ?_⟩
      · intro s hs
        rw [hns] at hs
        rcases List.mem_append.mp hs with hs | hs
        · have := hdd s (List.mem_reverse.mp hs)
          subst this
          exact ⟨by simp [dotdotSeg], by decide⟩
        · exact (hpl s (List.mem_reverse.mp hs)).1
      · refine Or.inr ⟨hemp, dd.reverse, pl.reverse, hns, ?_, ?_⟩
        · exact fun s hs => hdd s (List.mem_reverse.mp hs)
        · exact fun s hs => hpl s (List.mem_reverse.mp hs)

/-! Round-trip: serializing a canonical path and re-parsing it is the
identity (up to the bare-drive reinterpretation, which is string-level
invariant), so normalization fixes every canonical serialization. -/

theorem plain_segOK {segs : List (List Char)} (h : ∀ s ∈ segs, plainSeg s) :
    ∀ s ∈ segs, segOK s :=
  fun s hs => (h s hs).1

theorem sep_of_style (st : Style) : isSepChar (sepChar st) = true := by
  cases st <;> decide

theorem isSepHead_join {sep : Char} {segs : List (List Char)}
    (hsegs : ∀ s ∈ segs, segOK s) :
    isSepHead (joinSegs sep segs) = false := by
  cases segs with
  | nil => rfl
  | cons f rest =>
    have hf := hsegs f (by simp)
    obtain ⟨c₀, f₁, rfl⟩ : ∃ c₀ f₁, f = c₀ :: f₁ := by
      cases f with
      | nil => exact absurd rfl hf.1
      | cons a b => exact ⟨a, b, rfl⟩
    have hjoin : joinSegs sep ((c₀ :: f₁) :: rest) =
        c₀ :: (f₁ ++ joinTail sep rest) := by
      rw [joinSegs_eq]; rfl
    rw [hjoin]
    exact hf.2 c₀ (by simp)

theorem serialize_abs_parse {st : Style} {r : List Char} {segs : List (List Char)}
    (hroot : rootOK st r) (hsegs : ∀ s ∈ segs, plainSeg s) :
    parseL st (serializeL st ⟨some r, segs⟩) = ⟨some r, segs⟩ := by
  have hser : serializeL st ⟨some r, segs⟩ = r ++ joinSegs (sepChar st) segs := rfl
  cases st with
  | posix =>
    have hr : r = ['/'] := hroot
    subst hr
    rw [hser]
    show parsePosix ('/' :: joinSegs (sepChar .posix) segs) = _
    rw [parsePosix_root rfl, splitSegs_joinSegs (sep_of_style .posix) segs (plain_segOK hsegs)]
  | windows =>
    rcases hroot with hr | ⟨a, ha, hr | hr⟩ | ⟨h, sh, hh, hsh, hr⟩
    · -- bare root
      subst hr
      rw [hser]
      show parseWin ('\\' :: joinSegs (sepChar .windows) segs) = _
      rw [parseWin_sep (by decide)]
      cases segs with
      | nil => rfl
      | cons f rest =>
        have hf := hsegs f (by simp)
        obtain ⟨c₀, f₁, rfl⟩ : ∃ c₀ f₁, f = c₀ :: f₁ := by
          cases f with
          | nil => exact absurd rfl hf.1.1
          | cons a b => exact ⟨a, b, rfl⟩
        have hjoin : joinSegs (sepChar .windows) ((c₀ :: f₁) :: rest) =
            c₀ :: (f₁ ++ joinTail (sepChar .windows) rest) := by
          rw [joinSegs_eq]; rfl
        rw [hjoin, uncTail_nonsep (hf.1.2 c₀ (by simp)), ← hjoin,
          splitSegs_joinSegs (sep_of_style .windows) _ (plain_segOK hsegs)]
    · -- drive root without separator
      subst hr
      rw [hser]
      show parseWin (a :: ':' :: joinSegs (sepChar .windows) segs) = _
      rw [parseWin_alpha (alpha_not_sep ha) ha, winDrive_colon,
        isSepHead_join (plain_segOK hsegs),
        splitSegs_joinSegs (sep_of_style .windows) segs (plain_segOK hsegs)]
      rfl
    · -- drive root with separator
      subst hr
      rw [hser]
      show parseWin (a :: ':' :: '\\' :: joinSegs (sepChar .windows) segs) = _
      rw [parseWin_alpha (alpha_not_sep ha) ha, winDrive_colon,
        splitSegs_sep_nil (by decide),
        splitSegs_joinSegs (sep_of_style .windows) segs (plain_segOK hsegs)]
      rfl
    · -- UNC root
      subst hr
      rw [hser]
      have hassoc : ('\\' :: '\\' :: (h ++ '\\' :: (sh ++ ['\\']))) ++
          joinSegs (sepChar .windows) segs =
          '\\' :: '\\' :: (h ++ '\\' :: (sh ++ '\\' :: joinSegs (sepChar .windows) segs)) := by
        simp [List.append_assoc]
      rw [hassoc]
      show parseWin ('\\' :: '\\' ::
        (h ++ '\\' :: (sh ++ '\\' :: joinSegs (sepChar .windows) segs))) = _
      rw [parseWin_sep (by decide), uncTail_sep (by decide),
        splitSegs_append hh.2, splitSegs_sep_cons (by decide) _ (by simp [hh.1])]
      simp only [List.append_nil, List.reverse_reverse]
      rw [splitSegs_append hsh.2, splitSegs_sep_cons (by decide) _ (by simp [hsh.1])]
      simp only [List.append_nil, List.reverse_reverse]
      rw [splitSegs_joinSegs (sep_of_style .windows) segs (plain_segOK hsegs)]
      rfl

theorem norm_abs_plain {r : List Char} {segs : List (List Char)}
    (h : ∀ s ∈ segs, plainSeg s) : normPath ⟨some r, segs⟩ = ⟨some r, segs⟩ := by
  simp only [normPath, normSegs]
  rw [foldl_normStep_plain (fun s hs => ⟨(h s hs).2.1, (h s hs).2.2⟩) true []]
  simp

theorem canon_fixed_abs {st : Style} {q : ParsedPath} (h : Canon st q)
    (habs : q.root.isSome = true) :
    normalizeL st (serializeL st q) = serializeL st q := by
  obtain ⟨⟨hsegs, hroot⟩, hshape⟩ := h
  obtain ⟨root, segs⟩ := q
  cases root with
  | some r =>
    have hplain : ∀ s ∈ segs, plainSeg s := hshape
    show serializeL st (normPath (parseL st (serializeL st ⟨some r, segs⟩))) = _
    rw [serialize_abs_parse (hroot r rfl) hplain, norm_abs_plain hplain]
  | none => simp at habs

theorem abs_reparse {st : Style} {q : ParsedPath} (h : Canon st q)
    (habs : q.root.isSome = true) :
    (parseL st (serializeL st q)).root.isSome = true := by
  obtain ⟨⟨hsegs, hroot⟩, hshape⟩ := h
  obtain ⟨root, segs⟩ := q
  cases root with
  | some r =>
    have hplain : ∀ s ∈ segs, plainSeg s := hshape
    rw [serialize_abs_parse (hroot r rfl) hplain]
    rfl
  | none => simp at habs

/-! Facts about `appendP`, the resolver fold and the
current-working-directory argument. -/

theorem appendP_root (a b : ParsedPath) :
    (appendP a b).root = if b.root.isSome then b.root else a.root := by
  by_cases h : b.root.isSome = true <;> simp [appendP, h]

theorem foldl_appendP_rootSome {st : Style} :
    ∀ (parts : List (List Char)) {acc : ParsedPath},
      acc.root.isSome = true →
      (parts.foldl (fun acc s => appendP acc (parseL st s)) acc).root.isSome = true := by
  intro parts
  induction parts with
  | nil => exact fun h => h
  | cons p parts ih =>
    intro acc hacc
    rw [List.foldl_cons]
    refine ih ?_
    rw [appendP_root]
    by_cases h : (parseL st p).root.isSome = true <;> simp [h, hacc]

theorem foldl_appendP_absMember {st : Style} :
    ∀ parts : List (List Char),
      (∃ p ∈ parts, (parseL st p).root.isSome = true) →
      ∀ acc : ParsedPath,
        (parts.foldl (fun acc s => appendP acc (parseL st s)) acc).root.isSome = true := by
  intro parts
  induction parts with
  | nil => intro h; simp at h
  | cons p parts ih =>
    intro h acc
    rw [List.foldl_cons]
    rcases h with ⟨q, hq, habs⟩
    rcases List.mem_cons.mp hq with rfl | hq
    · refine foldl_appendP_rootSome parts ?_
      rw [appendP_root, if_pos habs]
      exact habs
    · exact ih ⟨q, hq, habs⟩ _

theorem foldl_appendP_indep {st : Style} :
    ∀ parts : List (List Char),
      (∃ p ∈ parts, (parseL st p).root.isSome = true) →
      ∀ acc₁ acc₂ : ParsedPath,
        parts.foldl (fun acc s => appendP acc (parseL st s)) acc₁ =
          parts.foldl (fun acc s => appendP acc (parseL st s)) acc₂ := by
  intro parts
  induction parts with
  | nil => intro h; simp at h
  | cons p parts ih =>
    intro h acc₁ acc₂
    rcases h with ⟨q, hq, habs⟩
    rcases List.mem_cons.mp hq with rfl | hq
    · simp only [List.foldl_cons]
      have hrepl : ∀ acc : ParsedPath, appendP acc (parseL st q) = parseL st q := by
        intro acc
        simp [appendP, habs]
      rw [hrepl acc₁, hrepl acc₂]
    · simp only [List.foldl_cons]
      exact ih ⟨q, hq, habs⟩ _ _

theorem commonPrefixLen_self : ∀ l : List (List Char), commonPrefixLen l l = l.length := by
  intro l
  induction l with
  | nil => rfl
  | cons a l ih => simp [commonPrefixLen, ih]

theorem getStrings_map : ∀ parts : List String,
    getStrings (parts.map JsValue.str) = some parts := by
  intro parts
  induction parts with
  | nil => rfl
  | cons p parts ih => simp [getStrings, ih]

theorem normPath_root (p : ParsedPath) : (normPath p).root = p.root := by
  cases h : p.root <;> simp [normPath, h]

theorem resolveL_indep {st : Style} (cwd₁ cwd₂ : List Char)
    (partsL : List (List Char))
    (h : ∃ p ∈ partsL, (parseL st p).root.isSome = true) :
    resolveL st cwd₁ partsL = resolveL st cwd₂ partsL := by
  have hind := foldl_appendP_indep partsL h (parseL st cwd₁) (parseL st cwd₂)
  have habs := foldl_appendP_absMember partsL h (parseL st cwd₁)
  have hanch : ∀ cwd : List Char,
      absolutize st cwd
        (partsL.foldl (fun acc s => appendP acc (parseL st s)) (parseL st cwd₁)) =
      partsL.foldl (fun acc s => appendP acc (parseL st s)) (parseL st cwd₁) := by
    intro cwd
    simp [absolutize, habs]
  unfold resolveL
  simp only [← hind, hanch cwd₁, hanch cwd₂]

/-- C3: for every argument sequence containing at least one absolute
path, `resolve` is independent of the current working directory: the two
invocations agree for any two provider answers.  (The provider is
consulted only through the start value and the final anchoring, and a
later absolute argument overrides everything before it.) -/
theorem resolve_cwd_independent (st : Style) (cwd₁ cwd₂ : String)
    (parts : List String) (h : ∃ p ∈ parts, isAbsStr st p = true) :
    resolveStr st cwd₁ parts = resolveStr st cwd₂ parts := by
  obtain ⟨p, hp, habs⟩ := h
  have hmem : ∃ q ∈ parts.map String.data, (parseL st q).root.isSome = true :=
    ⟨p.data, List.mem_map_of_mem String.data hp, habs⟩
  exact congrArg String.mk (resolveL_indep cwd₁.data cwd₂.data _ hmem)

/-- Closed witness for `resolve_cwd_independent`: an absolute argument
makes the result agree under two different working directories. -/
theorem resolve_cwd_independent_wit :
    resolveStr .posix "/one" ["rel", "/abs/x"] =
      resolveStr .posix "/two" ["rel", "/abs/x"] :=
  resolve_cwd_independent .posix "/one" "/two" ["rel", "/abs/x"]
    ⟨"/abs/x", by decide, by decide⟩

/-- C4: with an absolute working directory and a non-empty argument list,
the string `resolve` returns is absolute and is a fixed point of
`normalize` — the defining postcondition of the resolver. -/
theorem resolve_absolute_normalized (st : Style) (cwd : String)
    (parts : List String) (hcwd : isAbsStr st cwd = true) (hne : parts ≠ []) :
    isAbsStr st (resolveStr st cwd parts) = true ∧
      normalizeStr st (resolveStr st cwd parts) = resolveStr st cwd parts := by
  have hfold : ((parts.map String.data).foldl
      (fun acc s => appendP acc (parseL st s)) (parseL st cwd.data)).root.isSome = true :=
    foldl_appendP_rootSome _ hcwd
  have hpre : PreCanon st ((parts.map String.data).foldl
      (fun acc s => appendP acc (parseL st s)) (parseL st cwd.data)) :=
    foldl_appendP_preCanon _ (parseL_preCanon st cwd.data)
  have hcanon := normPath_canon hpre
  have hq : (normPath ((parts.map String.data).foldl
      (fun acc s => appendP acc (parseL st s)) (parseL st cwd.data))).root.isSome = true := by
    rw [normPath_root]; exact hfold
  have habs₂ : absolutize st cwd.data ((parts.map String.data).foldl
      (fun acc s => appendP acc (parseL st s)) (parseL st cwd.data)) =
      (parts.map String.data).foldl
        (fun acc s => appendP acc (parseL st s)) (parseL st cwd.data) := by
    simp [absolutize, hfold]
  have hres : resolveStr st cwd parts =
      ⟨serializeL st (normPath ((parts.map String.data).foldl
        (fun acc s => appendP acc (parseL st s)) (parseL st cwd.data)))⟩ := by
    show (⟨resolveL st cwd.data (parts.map String.data)⟩ : String) = _
    unfold resolveL
    simp only [habs₂]
  constructor
  · rw [hres]
    exact abs_reparse hcanon hq
  · rw [hres]
    exact congrArg String.mk (canon_fixed_abs hcanon hq)

/-- Closed witness for `resolve_absolute_normalized`. -/
theorem resolve_absolute_normalized_wit :
    isAbsStr .posix (resolveStr .posix "/home" ["a", "b"]) = true ∧
      normalizeStr .posix (resolveStr .posix "/home" ["a", "b"]) =
        resolveStr .posix "/home" ["a", "b"] :=
  resolve_absolute_normalized .posix "/home" ["a", "b"] (by decide) (by decide)

/-- C6: normalization is root-clamping: a `..` at the root of an absolute
path is discarded (for every following segment list), while a relative
path keeps a leading `..` at the front of its output; in particular
`normalize "/a/../../b" = "/b"` and `normalize "a/../../b" = "../b"`. -/
theorem normalize_root_clamping :
    normalizeStr .posix "/a/../../b" = "/b" ∧
    normalizeStr .posix "a/../../b" = "../b" ∧
    normStep true [] dotdotSeg = [] ∧
    normStep false [] dotdotSeg = [dotdotSeg] ∧
    (∀ segs : List (List Char), normSegs true (dotdotSeg :: segs) = normSegs true segs) ∧
    (∀ (k : ℕ) (segs : List (List Char)), ∃ l,
      normSegs false (List.replicate k dotdotSeg ++ segs) =
        List.replicate k dotdotSeg ++ l) := by
  refine ⟨by decide, by decide, by decide, by decide, ?_, ?_⟩
  · intro segs
    have hstep : normStep true [] dotdotSeg = [] := by decide
    simp [normSegs, hstep]
  · intro k segs
    have hrep : ∀ s ∈ List.replicate k dotdotSeg, s = dotdotSeg :=
      fun s hs => List.eq_of_mem_replicate hs
    have hdd : (List.replicate k dotdotSeg).foldl (normStep false) [] =
        List.replicate k dotdotSeg := by
      rw [foldl_normStep_dds hrep [] (by simp), List.append_nil,
        List.reverse_replicate]
    obtain ⟨l, hl⟩ := foldl_normStep_suffix hrep segs []
    simp only [List.nil_append] at hl
    refine ⟨l.reverse, ?_⟩
    simp only [normSegs, List.foldl_append, hdd, hl, List.reverse_append,
      List.reverse_replicate]

/-- C7: the cases of `relative` over resolved-and-normalized arguments:
different root prefixes yield the fully resolved `to` path (with the
Windows drive-mismatch literal), identical resolved paths yield `.`
(with the POSIX literal), and with equal roots in general the result is
one `..` per `from` segment beyond the longest common segment prefix
followed by the remaining `to` segments, joined with the separator (`.`
when that list is empty). -/
theorem relative_cases :
    (∀ cwd : String, relativeStr .windows cwd "c:\\foo" "d:\\bar" = "d:\\bar") ∧
    (∀ cwd : String, relativeStr .posix cwd "/foo/bar" "/foo/bar" = ".") ∧
    (∀ (st : Style) (cwd f t : String),
      normPath (absolutize st cwd.data (parseL st f.data)) =
        normPath (absolutize st cwd.data (parseL st t.data)) →
      relativeStr st cwd f t = ".") ∧
    (∀ (st : Style) (cwd f t : String),
      (normPath (absolutize st cwd.data (parseL st f.data))).root ≠
        (normPath (absolutize st cwd.data (parseL st t.data))).root →
      relativeStr st cwd f t =
        ⟨serializeL st (normPath (absolutize st cwd.data (parseL st t.data)))⟩) ∧
    (∀ (st : Style) (cwd f t : String) (pf pt : ParsedPath),
      pf = normPath (absolutize st cwd.data (parseL st f.data)) →
      pt = normPath (absolutize st cwd.data (parseL st t.data)) →
      pf.root = pt.root →
      relativeStr st cwd f t =
        (if List.replicate (pf.segs.length - commonPrefixLen pf.segs pt.segs)
              dotdotSeg ++ pt.segs.drop (commonPrefixLen pf.segs pt.segs) = []
         then "."
         else ⟨joinSegs (sepChar st)
           (List.replicate (pf.segs.length - commonPrefixLen pf.segs pt.segs)
             dotdotSeg ++ pt.segs.drop (commonPrefixLen pf.segs pt.segs))⟩)) := by
  refine ⟨fun cwd => rfl, fun cwd => rfl, ?_, ?_, ?_⟩
  · intro st cwd f t h
    show (⟨relativeL st cwd.data f.data t.data⟩ : String) = "."
    unfold relativeL
    simp only [h, ne_eq, not_true_eq_false, if_false, commonPrefixLen_self,
      Nat.sub_self, List.replicate_zero, List.drop_length, List.append_nil,
      if_pos rfl, reduceIte]
    decide
  · intro st cwd f t h
    show (⟨relativeL st cwd.data f.data t.data⟩ : String) = _
    unfold relativeL
    simp only [if_pos h, ne_eq, h, not_false_eq_true, reduceIte]
  · intro st cwd f t pf pt hpf hpt hroot
    subst hpf
    subst hpt
    show (⟨relativeL st cwd.data f.data t.data⟩ : String) = _
    unfold relativeL
    rw [if_neg (not_not_intro hroot)]
    by_cases hr : List.replicate
        ((normPath (absolutize st cwd.data (parseL st f.data))).segs.length -
          commonPrefixLen (normPath (absolutize st cwd.data (parseL st f.data))).segs
            (normPath (absolutize st cwd.data (parseL st t.data))).segs) dotdotSeg ++
        (normPath (absolutize st cwd.data (parseL st t.data))).segs.drop
          (commonPrefixLen (normPath (absolutize st cwd.data (parseL st f.data))).segs
            (normPath (absolutize st cwd.data (parseL st t.data))).segs) = []
    · rw [if_pos hr, if_pos hr]
      decide
    · rw [if_neg hr, if_neg hr]

/-- Closed witness for `relative_cases`: the identical-paths case, the
root-mismatch case, and the general same-root case at concrete inputs. -/
theorem relative_cases_wit :
    relativeStr .posix "/" "/same/p" "/same/p" = "." ∧
    relativeStr .windows "c:\\" "c:\\a" "d:\\b" =
      ⟨serializeL .windows (normPath (absolutize .windows ("c:\\" : String).data
        (parseL .windows ("d:\\b" : String).data)))⟩ ∧
    relativeStr .posix "/" "/a/b" "/a/c" = "../c" :=
  ⟨relative_cases.2.2.1 .posix "/" "/same/p" "/same/p" (by decide),
   relative_cases.2.2.2.1 .windows "c:\\" "c:\\a" "d:\\b" (by decide),
   (relative_cases.2.2.2.2 .posix "/" "/a/b" "/a/c" _ _ rfl rfl (by decide)).trans
     (by decide)⟩

/-- C8: `extname` returns the substring of the last segment from its last
dot when that dot exists and is not the segment's first character (a
trailing dot thus yields `"."`), and the empty string when there is no
dot or the only dot is at position 0; with the three literal scenarios. -/
theorem extname_last_dot :
    extnameStr .posix "index.coffee.md" = ".md" ∧
    extnameStr .posix "index." = "." ∧
    extnameStr .posix "index" = "" ∧
    (∀ (st : Style) (s : String),
      lastDotIdx (lastSegL st s.data) = none → extnameStr st s = "") ∧
    (∀ (st : Style) (s : String),
      lastDotIdx (lastSegL st s.data) = some 0 → extnameStr st s = "") ∧
    (∀ (st : Style) (s : String) (i : ℕ),
      lastDotIdx (lastSegL st s.data) = some i → i ≠ 0 →
      extnameStr st s = ⟨(lastSegL st s.data).drop i⟩) := by
  refine ⟨by decide, by decide, by decide, ?_, ?_, ?_⟩
  · intro st s h
    show (⟨extnameL st s.data⟩ : String) = ""
    simp [extnameL, extOfSeg, h]
  · intro st s h
    show (⟨extnameL st s.data⟩ : String) = ""
    simp [extnameL, extOfSeg, h]
  · intro st s i h hi
    show (⟨extnameL st s.data⟩ : String) = _
    cases i with
    | zero => exact absurd rfl hi
    | succ j => simp [extnameL, extOfSeg, h]

/-- Closed witness for `extname_last_dot`: the dot-at-position-one case. -/
theorem extname_last_dot_wit :
    extnameStr .posix "a.b" = ⟨(lastSegL .posix ("a.b" : String).data).drop 1⟩ :=
  extname_last_dot.2.2.2.2.2 .posix "a.b" 1 (by decide) (by decide)

/-- C1 counterexample: with suffix `".html"` and last segment
`"a.html.txt"`, the suffix is not a trailing substring, yet `basename`
does not return the segment unchanged — it truncates at the first
occurrence and returns `"a"`. -/
theorem basename_suffix_not_trailing_cex :
    basenameStr .posix "a.html.txt" (some ".html") = "a" ∧
      basenameStr .posix "a.html.txt" (some ".html") ≠ "a.html.txt" := by
  constructor <;> decide

/-- C1 as amended: `basename(path, suffix)` truncates the last segment at
the first occurrence of the suffix anywhere in it (dropping the suffix
and everything after it), and returns the segment unchanged when the
suffix does not occur; the literal
`basename("/foo/bar/baz/asdf/quux.html", ".html") = "quux"` holds. -/
theorem basename_first_find_truncates :
    (∀ (st : Style) (p ext : String),
      strFind ext.data (lastSegL st p.data) = none →
      basenameStr st p (some ext) = ⟨lastSegL st p.data⟩) ∧
    (∀ (st : Style) (p ext : String) (i : ℕ),
      strFind ext.data (lastSegL st p.data) = some i →
      basenameStr st p (some ext) = ⟨(lastSegL st p.data).take i⟩) ∧
    basenameStr .posix "/foo/bar/baz/asdf/quux.html" (some ".html") = "quux" := by
  refine ⟨?_, ?_, by decide⟩
  · intro st p ext h
    show (⟨basenameL st p.data (some ext.data)⟩ : String) = _
    simp [basenameL, h]
  · intro st p ext i h
    show (⟨basenameL st p.data (some ext.data)⟩ : String) = _
    simp [basenameL, h]

/-- Closed witness for `basename_first_find_truncates`: the suffix found
at position 1 truncates there. -/
theorem basename_first_find_truncates_wit :
    basenameStr .posix "b.html" (some ".html") =
      ⟨(lastSegL .posix ("b.html" : String).data).take 1⟩ :=
  basename_first_find_truncates.2.1 .posix "b.html" ".html" 1 (by decide)

/-- C10: the suffix argument of `basename` truncates at the first
occurrence anywhere in the last segment — a mid-segment occurrence cuts
the name there, and a suffix equal to the entire last segment leaves the
empty string. -/
theorem basename_suffix_first_occurrence :
    basenameStr .posix "x/a.html.txt" (some ".html") = "a" ∧
    basenameStr .posix "foo/.html" (some ".html") = "" := by
  constructor <;> decide

/-- C2 counterexample: no export of `path::Init` is named `separator`
(under either platform style) — the data property is named `sep`. -/
theorem exports_no_separator_name_cex :
    "separator" ∉ (pathExports .posix).map Prod.fst ∧
      "separator" ∉ (pathExports .windows).map Prod.fst := by
  constructor <;> decide

/-- C2 as amended: the module exposes a data property named `sep` whose
value is the platform's preferred separator character, alongside exactly
the eight path operations. -/
theorem exports_sep_constant (st : Style) :
    ("sep", ExportValue.data ⟨[sepChar st]⟩) ∈ pathExports st ∧
    (pathExports st).map Prod.fst =
      ["normalize", "resolve", "join", "dirname", "basename", "extname",
       "isAbsolute", "relative", "sep"] ∧
    ((pathExports st).filter (fun e => e.2 == ExportValue.method)).length = 8 := by
  cases st <;> exact ⟨by decide, by decide, by decide⟩

/-- C9: every exposed operation succeeds on every well-typed argument
list (correct arity, all strings — including empty strings), and every
arity or type violation is answered by the callback's `CHECK_ARG` error
message naming the operation, with no partial result. -/
theorem callbacks_arity_type_checks (st : Style) (cwd : String) :
    -- normalize
    (∀ s, NormalizeCallback st [.str s] = .ok (normalizeStr st s)) ∧
    (∀ args, (∀ s, args ≠ [JsValue.str s]) →
      NormalizeCallback st args =
        .error "path.normalize requires 1 string parameter of file path.") ∧
    -- resolve
    (∀ s parts, ResolveCallback st cwd (JsValue.str s :: parts.map JsValue.str) =
      .ok (resolveStr st cwd (s :: parts))) ∧
    (ResolveCallback st cwd [] =
      .error "path.resolve requires at least one string parameters.") ∧
    (∀ args, args ≠ [] → getStrings args = none →
      ResolveCallback st cwd args =
        .error "path.resolve doesn't accept non-string argument.") ∧
    -- join
    (∀ s parts, JoinCallback st (JsValue.str s :: parts.map JsValue.str) =
      .ok (joinStr st s parts)) ∧
    (∀ args, (∀ s rest, args ≠ JsValue.str s :: rest) →
      JoinCallback st args =
        .error "path.join requires at least one string parameters.") ∧
    (∀ s rest, getStrings rest = none →
      JoinCallback st (JsValue.str s :: rest) =
        .error "path.join doesn't accept non-string argument.") ∧
    -- dirname
    (∀ s, DirnameCallback st [.str s] = .ok (dirnameStr st s)) ∧
    (∀ args, (∀ s, args ≠ [JsValue.str s]) →
      DirnameCallback st args =
        .error "path.dirname requires 1 string parameter of file path.") ∧
    -- basename
    (∀ s, BasenameCallback st [.str s] = .ok (basenameStr st s none)) ∧
    (∀ s e, BasenameCallback st [.str s, .str e] =
      .ok (basenameStr st s (some e))) ∧
    (∀ args, args.length ≠ 1 → args.length ≠ 2 →
      BasenameCallback st args =
        .error "path.basename takes 1 required argument of file path and 1 optional argument of extension") ∧
    (∀ rest, rest.length ≤ 1 →
      BasenameCallback st (JsValue.other :: rest) =
        .error "path.basename requires a string parameter of file path.") ∧
    (∀ s, BasenameCallback st [JsValue.str s, JsValue.other] =
      .error "path.basename requires a string as 2nd parameter of extension.") ∧
    -- extname
    (∀ s, ExtnameCallback st [.str s] = .ok (extnameStr st s)) ∧
    (∀ args, (∀ s, args ≠ [JsValue.str s]) →
      ExtnameCallback st args =
        .error "path.extname requires 1 string parameter of file path.") ∧
    -- isAbsolute
    (∀ s, IsAbsoluteCallback st [.str s] = .ok (isAbsStr st s)) ∧
    (∀ args, (∀ s, args ≠ [JsValue.str s]) →
      IsAbsoluteCallback st args =
        .error "path.isAbsolute requires 1 string parameter of file path.") ∧
    -- relative
    (∀ f t, RelativeCallback st cwd [.str f, .str t] =
      .ok (relativeStr st cwd f t)) ∧
    (∀ args, (∀ f t, args ≠ [JsValue.str f, JsValue.str t]) →
      RelativeCallback st cwd args =
        .error "path.relative requires 2 arguments of string type.") := by
  refine ⟨fun s => rfl, ?_, ?_, rfl, ?_, ?_, ?_, ?_, fun s => rfl, ?_,
    fun s => rfl, fun s e => rfl, ?_, ?_, fun s => rfl, fun s => rfl, ?_,
    fun s => rfl, ?_, fun f t => rfl, ?_⟩
  · -- normalize, wrong shape
    intro args h
    match args with
    | [] => rfl
    | [.str s] => exact absurd rfl (h s)
    | [.other] => rfl
    | a :: b :: rest => cases a <;> rfl
  · -- resolve, well typed
    intro s parts
    show ResolveCallback st cwd (JsValue.str s :: parts.map JsValue.str) = _
    unfold ResolveCallback
    rw [if_neg (by simp)]
    have hg : getStrings (JsValue.str s :: parts.map JsValue.str) =
        some (s :: parts) := by
      simp [getStrings, getStrings_map]
    rw [hg]
  · -- resolve, non-string argument
    intro args hne hnone
    unfold ResolveCallback
    rw [if_neg (by simpa using hne), hnone]
  · -- join, well typed
    intro s parts
    simp only [JoinCallback, getStrings_map]
  · -- join, wrong head
    intro args h
    match args with
    | [] => rfl
    | .str s :: rest => exact absurd rfl (h s rest)
    | .other :: rest => rfl
  · -- join, non-string tail
    intro s rest h
    simp only [JoinCallback, h]
  · -- dirname, wrong shape
    intro args h
    match args with
    | [] => rfl
    | [.str s] => exact absurd rfl (h s)
    | [.other] => rfl
    | a :: b :: rest => cases a <;> rfl
  · -- basename, wrong arity
    intro args h₁ h₂
    unfold BasenameCallback
    rw [if_neg (by simp [h₁, h₂])]
  · -- basename, non-string path
    intro rest hlen
    match rest with
    | [] => rfl
    | [a] => rfl
    | a :: b :: rest₂ => simp at hlen
  · -- extname, wrong shape
    intro args h
    match args with
    | [] => rfl
    | [.str s] => exact absurd rfl (h s)
    | [.other] => rfl
    | a :: b :: rest => cases a <;> rfl
  · -- isAbsolute, wrong shape
    intro args h
    match args with
    | [] => rfl
    | [.str s] => exact absurd rfl (h s)
    | [.other] => rfl
    | a :: b :: rest => cases a <;> rfl
  · -- relative, wrong shape
    intro args h
    match args with
    | [] => rfl
    | [a] => cases a <;> rfl
    | [.str f, .str t] => exact absurd rfl (h f t)
    | [.str f, .other] => rfl
    | [.other, b] => rfl
    | a :: b :: c :: rest => cases a <;> cases b <;> rfl

/-- Closed witness for `callbacks_arity_type_checks`: a wrong-shape call
to `normalize` errors with the message naming the operation, and a
non-string argument to `resolve` errors likewise. -/
theorem callbacks_arity_type_checks_wit :
    NormalizeCallback .posix [] =
      .error "path.normalize requires 1 string parameter of file path." ∧
    ResolveCallback .posix "/" [JsValue.other] =
      .error "path.resolve doesn't accept non-string argument." :=
  ⟨(callbacks_arity_type_checks .posix "/").2.1 [] (by intro s; simp),
   (callbacks_arity_type_checks .posix "/").2.2.2.2.1 [JsValue.other]
     (by simp) (by decide)⟩

end NapaPath
